import Mathlib

set_option linter.all false

namespace PDFiG

/-- One cross-reference table entry (source struct `xrefEntry`).
`byteOffset` is a `uint64` in the source and `generation` a `uint16`;
both are modelled as `Nat`: `generation` is only ever incremented under a
`< 65535` guard, and `byteOffset` only receives output positions and slot
indices, so no arithmetic in the translated code can overflow them. -/
structure xrefEntry where
  byteOffset : Nat
  generation : Nat
  inUse : Bool
  dirty : Bool
deriving DecidableEq, Repr

/-- Source struct `ObjectNumber`: `number` is a `uint32`, `generation` a
`uint16`.  `ReserveObjectNumber` applies the `uint32` truncation
(`% 2^32`) where the source casts `uint32(nextUnused)`; the fields
themselves carry no other arithmetic. -/
structure ObjectNumber where
  number : Nat
  generation : Nat
deriving DecidableEq, Repr

/-- Failure outcomes of the store operations.  The source signals these by
`panic`: `AlreadyWritten` is the panic "An object has already been written
with this number", `GenerationMismatch` is the panic "Generation number
mismatch", and `BadIndex` stands for an out-of-range access into the
`containers.Array` slot table (the container's code is outside this
repository; every claim below restricts attention to in-range slots). -/
inductive Err where
  | AlreadyWritten
  | GenerationMismatch
  | BadIndex
deriving DecidableEq, Repr

/-- The object store (source struct `file`).  The `xref` field is the slot
table; `output` models the byte stream handed to the buffered writer
(`writer`), so `output.length` is the current end-of-file position that
`file.Seek(0,1)` reports after a flush. -/
structure file where
  xref : List xrefEntry
  output : String
deriving DecidableEq, Repr

/-- Update slot `i` in place when it exists (pointer write through
`*xref.At(i)` in the source); out-of-range updates leave the table
unchanged (never exercised by the translated call sites). -/
def updSlot (x : List xrefEntry) (i : Nat) (f : xrefEntry → xrefEntry) : List xrefEntry :=
  match x.get? i with
  | some e => x.set i (f e)
  | none => x

/-- Decimal rendering zero-padded to width `w`, exactly the
semantics of Go's `%0wd` for natural values. -/
def pad0 (w n : Nat) : String :=
  let s := toString n
  String.mk (List.replicate (w - s.length) '0') ++ s

/-- Source method `xrefEntry.Serialize`: the fixed-width record
`"%010d %05d %c \n"` with `n` for an in-use slot and `f` for a free one. -/
def xrefEntry.serialize (e : xrefEntry) : String :=
  pad0 10 e.byteOffset ++ " " ++ pad0 5 e.generation ++ " " ++
    (if e.inUse then "n" else "f") ++ " \n"

/-- The scan loop of `ReserveObjectNumber`: advance `i` while
`i < xref.Size() && entry(i).generation < 65535 && entry(i).inUse`.
The loop is written with an explicit fuel argument (structural recursion,
so that concrete runs reduce inside the kernel); `nextUnusedFrom` supplies
exactly the fuel the loop can consume. -/
def reserveScanAux (x : List xrefEntry) : Nat → Nat → Nat
  | 0, i => i
  | fuel+1, i =>
    if h : i < x.length then
      if (x.get ⟨i, h⟩).generation < 65535 ∧ (x.get ⟨i, h⟩).inUse = true then
        reserveScanAux x fuel (i+1)
      else i
    else i

/-- Result of the `ReserveObjectNumber` scan started at index `i`. -/
def nextUnusedFrom (x : List xrefEntry) (i : Nat) : Nat :=
  reserveScanAux x (x.length - i) i

/-- Source method `file.ReserveObjectNumber`.  Scans from index 1; if the
scan exhausts the table a fresh slot `{0, 0, true, true}` is appended,
otherwise the found slot's link is copied into the free-list head, the slot
is marked in use, and its generation is returned.  `uint32(nextUnused)` is
the `% 2^32` truncation. -/
def file.ReserveObjectNumber (s : file) : ObjectNumber × file :=
  let nextUnused := nextUnusedFrom s.xref 1
  if h : nextUnused < s.xref.length then
    let entry := s.xref.get ⟨nextUnused, h⟩
    let x1 := updSlot s.xref 0 (fun e0 => { e0 with byteOffset := entry.byteOffset })
    let x2 := updSlot x1 nextUnused (fun e => { e with inUse := true })
    ({ number := nextUnused % 4294967296, generation := entry.generation },
     { s with xref := x2 })
  else
    ({ number := nextUnused % 4294967296, generation := 0 },
     { s with xref := s.xref ++ [⟨0, 0, true, true⟩] })

/-- Source method `file.DeleteObject`.  Requires the stored generation to
match, pushes the slot onto the free list (slot 0's `byteOffset` is the
head), bumps the generation under the `< 65535` guard, clears `inUse` and
sets `dirty`.  The three `updSlot` steps follow the source's write order so
that the aliased case `obj.number = 0` behaves exactly as the pointer code
does. -/
def file.DeleteObject (s : file) (obj : ObjectNumber) : Except Err file :=
  if hn : obj.number < s.xref.length then
    let entry := s.xref.get ⟨obj.number, hn⟩
    if obj.generation ≠ entry.generation then
      .error .GenerationMismatch
    else
      let head := (s.xref.get ⟨0, Nat.lt_of_le_of_lt (Nat.zero_le _) hn⟩).byteOffset
      let x1 := updSlot s.xref obj.number (fun e => { e with byteOffset := head })
      let x2 := updSlot x1 0 (fun e0 => { e0 with byteOffset := obj.number })
      let x3 := updSlot x2 obj.number (fun e =>
        { e with
          generation := if e.generation < 65535 then e.generation + 1 else e.generation,
          inUse := false,
          dirty := true })
      .ok { s with xref := x3 }
  else
    .error .BadIndex

/-- Source method `file.AddObjectAt`.  Rejects a slot whose `byteOffset` is
already nonzero (`AlreadyWritten`) — this check comes first in the source —
then a generation mismatch; a successful call records the current end-of-output
position into the slot and emits the framed object record.  `payload`
stands for the bytes produced by the external `Object.Serialize`. -/
def file.AddObjectAt (s : file) (obj : ObjectNumber) (payload : String) : Except Err file :=
  if hn : obj.number < s.xref.length then
    let entry := s.xref.get ⟨obj.number, hn⟩
    if entry.byteOffset ≠ 0 then
      .error .AlreadyWritten
    else if entry.generation ≠ obj.generation then
      .error .GenerationMismatch
    else
      let position := s.output.length
      let x1 := updSlot s.xref obj.number (fun e => { e with byteOffset := position })
      .ok { xref := x1,
            output := s.output ++ toString obj.number ++ " " ++ toString obj.generation
                      ++ " obj\n" ++ payload ++ "\nendobj\n" }
  else
    .error .BadIndex

/-- Source method `file.AddObject`: reserve then write at the reserved
number. -/
def file.AddObject (s : file) (payload : String) : ObjectNumber × Except Err file :=
  let r := s.ReserveObjectNumber
  (r.1, r.2.AddObjectAt r.1 payload)

/-- First loop of the source function `nextSegment`: skip non-dirty slots
(fuel-structured like `reserveScanAux`). -/
def skipCleanAux (x : List xrefEntry) : Nat → Nat → Nat
  | 0, i => i
  | fuel+1, i =>
    if h : i < x.length then
      if (x.get ⟨i, h⟩).dirty = false then skipCleanAux x fuel (i+1) else i
    else i

/-- Index of the first dirty slot at or after `start` (`nextStart` in the
source), or the table size when none remains. -/
def skipClean (x : List xrefEntry) (start : Nat) : Nat :=
  skipCleanAux x (x.length - start) start

/-- Second loop of the source function `nextSegment`: length of the dirty
run starting at `i`. -/
def dirtyLenAux (x : List xrefEntry) : Nat → Nat → Nat
  | 0, _ => 0
  | fuel+1, i =>
    if h : i < x.length then
      if (x.get ⟨i, h⟩).dirty = true then dirtyLenAux x fuel (i+1) + 1 else 0
    else 0

/-- Length of the maximal dirty run starting at `i`. -/
def dirtyRunLen (x : List xrefEntry) (i : Nat) : Nat :=
  dirtyLenAux x (x.length - i) i

/-- Source function `nextSegment`: the next dirty segment (start index and
length) at or after `start`. -/
def nextSegment (x : List xrefEntry) (start : Nat) : Nat × Nat :=
  (skipClean x start, dirtyRunLen x (skipClean x start))

/-- Output of one segment in `writeXref`: the header `"%d %d\n"` followed
by the fixed-width records of the `l` slots starting at `s` in ascending
index order (the source's inner `for` loop). -/
def segString (x : List xrefEntry) (s l : Nat) : String :=
  toString s ++ " " ++ toString l ++ "\n" ++
    String.join (((x.drop s).take l).map xrefEntry.serialize)

/-- The segment loop of the source method `file.writeXref`:
`for s,l := nextSegment(xref,0); s < xref.Size(); s,l = nextSegment(xref,s+l)`.
Each iteration consumes at least one slot, so `length + 1` fuel is always
enough. -/
def writeXrefAux (x : List xrefEntry) : Nat → Nat → String
  | 0, _ => ""
  | fuel+1, start =>
    let p := nextSegment x start
    if p.1 < x.length then segString x p.1 p.2 ++ writeXrefAux x fuel (p.1 + p.2)
    else ""

/-- Source method `file.writeXref`: the keyword line `"xref\n"` followed by
every dirty segment. -/
def writeXrefString (x : List xrefEntry) : String :=
  "xref\n" ++ writeXrefAux x (x.length + 1) 0

/-- Source method `file.Close`: emits the cross-reference index and
flushes.  The source keeps no closed flag, so the state transformation is
total and repeatable. -/
def file.Close (s : file) : file :=
  { s with output := s.output ++ writeXrefString s.xref }

/-- Source function `NewFile` after `writePdfHeader` and
`createInitialXref`: the header line has been emitted and the table holds
the single free-list-head slot `{0, 65535, false, true}`. -/
def NewFile : file :=
  { xref := [⟨0, 65535, false, true⟩], output := "%PDF-1.4\n" }

/-- One caller-visible operation of the object store. -/
inductive Op where
  | reserve
  | writeAt (obj : ObjectNumber) (payload : String)
  | delete (obj : ObjectNumber)
  | close
deriving Repr

/-- Apply one operation; a panicking operation (`Except.error`) aborts the
run, so no state is reachable past it. -/
def applyOp (s : file) : Op → Option file
  | .reserve => some s.ReserveObjectNumber.2
  | .writeAt obj p => (s.AddObjectAt obj p).toOption
  | .delete obj => (s.DeleteObject obj).toOption
  | .close => some s.Close

/-- Run a list of operations from a state, stopping at the first panic. -/
def runOps : file → List Op → Option file
  | s, [] => some s
  | s, op :: rest =>
    match applyOp s op with
    | some s1 => runOps s1 rest
    | none => none

/-- A state is reachable when some sequence of successful operations
produces it from a freshly constructed store. -/
def Reachable (s : file) : Prop :=
  ∃ ops : List Op, runOps NewFile ops = some s

/-- The continue-condition of the `ReserveObjectNumber` scan at index `i`,
as a boolean on the table: the slot exists, its generation is below the
retirement sentinel, and it is in use. -/
def scanContB (x : List xrefEntry) (i : Nat) : Bool :=
  if h : i < x.length then
    decide ((x.get ⟨i, h⟩).generation < 65535) && (x.get ⟨i, h⟩).inUse
  else false

/-- The slot at index `i` exists and is dirty. -/
def dirtyAtB (x : List xrefEntry) (i : Nat) : Bool :=
  if h : i < x.length then (x.get ⟨i, h⟩).dirty else false

/-- The list of `(start, length)` segments the `writeXref` loop visits,
mirroring `writeXrefAux` iteration for iteration. -/
def xrefRunsAux (x : List xrefEntry) : Nat → Nat → List (Nat × Nat)
  | 0, _ => []
  | fuel+1, start =>
    let p := nextSegment x start
    if p.1 < x.length then p :: xrefRunsAux x fuel (p.1 + p.2) else []

/-- All segments the index serializer emits for the table. -/
def xrefRuns (x : List xrefEntry) : List (Nat × Nat) :=
  xrefRunsAux x (x.length + 1) 0

/-- Concatenated segment output for an explicit segment list. -/
def emitRuns (x : List xrefEntry) : List (Nat × Nat) → String
  | [] => ""
  | p :: rest => segString x p.1 p.2 ++ emitRuns x rest

/-- Index `i` lies inside one of the segments. -/
def coveredB (rs : List (Nat × Nat)) (i : Nat) : Bool :=
  rs.any (fun p => decide (p.1 ≤ i) && decide (i < p.1 + p.2))

/-- Specification-side description of the index layout (from the spec's
words): the segment list consists of exactly the maximal contiguous runs of
dirty slots — a slot index is dirty precisely when some segment covers it —
emitted in ascending order with a clean gap between consecutive segments,
each segment nonempty and within the table bounds. -/
def isMaximalRuns (x : List xrefEntry) (rs : List (Nat × Nat)) : Prop :=
  (∀ i, dirtyAtB x i = coveredB rs i) ∧
    List.Chain' (fun a b => a.1 + a.2 < b.1) rs ∧
    (∀ p ∈ rs, 1 ≤ p.2 ∧ p.1 + p.2 ≤ x.length)

/-- No slot other than slot 0 has reached the retirement sentinel. -/
def noRetired (x : List xrefEntry) : Prop :=
  ∀ i (h : i < x.length), 1 ≤ i → (x.get ⟨i, h⟩).generation < 65535

/-- The ObjectNumbers returned by `n` consecutive `ReserveObjectNumber`
calls with no operation in between. -/
def reserveSeq : file → Nat → List ObjectNumber
  | _, 0 => []
  | s, n+1 =>
    let r := s.ReserveObjectNumber
    r.1 :: reserveSeq r.2 n

/-- The operation sequence of `k` reserve/delete cycles on object number 1:
cycle `j` reserves (obtaining generation `j`) and immediately deletes. -/
def cycleOps : Nat → List Op
  | 0 => []
  | k+1 => cycleOps k ++ [.reserve, .delete ⟨1, k⟩]

/-- The store state after `k ≥ 1` reserve/delete cycles on object number 1:
slot 0 is the free-list head pointing at slot 1, and slot 1 is free at
generation `k`. -/
def cycleState (k : Nat) : file :=
  { xref := [⟨1, 65535, false, true⟩, ⟨0, k, false, true⟩], output := "%PDF-1.4\n" }

theorem length_updSlot (x : List xrefEntry) (i : Nat) (f : xrefEntry → xrefEntry) :
    (updSlot x i f).length = x.length := by
  unfold updSlot
  cases h : x.get? i <;> simp

theorem get?_updSlot_self (x : List xrefEntry) (i : Nat) (f : xrefEntry → xrefEntry) :
    (updSlot x i f).get? i = (x.get? i).map f := by
  unfold updSlot
  cases hg : x.get? i with
  | none => simp [hg]; exact List.get?_eq_none.mp hg
  | some e =>
    have hlt : i < x.length := by
      by_contra hge
      rw [List.get?_eq_none.mpr (Nat.le_of_not_lt hge)] at hg
      exact Option.noConfusion hg
    exact List.get?_set_eq_of_lt (f e) hlt

theorem get?_updSlot_ne (x : List xrefEntry) (i : Nat) (f : xrefEntry → xrefEntry)
    (j : Nat) (h : j ≠ i) : (updSlot x i f).get? j = x.get? j := by
  unfold updSlot
  cases hg : x.get? i with
  | none => rfl
  | some e => exact List.get?_set_ne _ _ (fun hh => h hh.symm)

theorem scan_ge (x : List xrefEntry) : ∀ fuel i, i ≤ reserveScanAux x fuel i := by
  intro fuel
  induction fuel with
  | zero => intro i; exact Nat.le_refl i
  | succ fuel ih =>
    intro i
    simp only [reserveScanAux]
    split
    · split
      · exact Nat.le_trans (Nat.le_succ i) (ih (i+1))
      · exact Nat.le_refl i
    · exact Nat.le_refl i

theorem scan_le (x : List xrefEntry) :
    ∀ fuel i, i ≤ x.length → reserveScanAux x fuel i ≤ x.length := by
  intro fuel
  induction fuel with
  | zero => intro i hi; exact hi
  | succ fuel ih =>
    intro i hi
    simp only [reserveScanAux]
    split
    · split
      · exact ih (i+1) (by omega)
      · exact hi
    · exact hi

theorem scan_pass (x : List xrefEntry) :
    ∀ fuel i j, i ≤ j → j < reserveScanAux x fuel i → scanContB x j = true := by
  intro fuel
  induction fuel with
  | zero =>
    intro i j hij hj
    simp only [reserveScanAux] at hj
    omega
  | succ fuel ih =>
    intro i j hij hj
    simp only [reserveScanAux] at hj
    by_cases hlt : i < x.length
    · rw [dif_pos hlt] at hj
      by_cases hc : (x.get ⟨i, hlt⟩).generation < 65535 ∧ (x.get ⟨i, hlt⟩).inUse = true
      · rw [if_pos hc] at hj
        rcases Nat.lt_or_ge i j with hlt2 | hge2
        · exact ih (i+1) j hlt2 hj
        · have hij2 : i = j := Nat.le_antisymm hij hge2
          subst hij2
          unfold scanContB
          rw [dif_pos hlt]
          simp only [Bool.and_eq_true, decide_eq_true_eq]
          exact hc
      · rw [if_neg hc] at hj; omega
    · rw [dif_neg hlt] at hj; omega

theorem scan_stop (x : List xrefEntry) :
    ∀ fuel i, x.length ≤ i + fuel →
      ∀ h : reserveScanAux x fuel i < x.length,
        scanContB x (reserveScanAux x fuel i) = false := by
  intro fuel
  induction fuel with
  | zero =>
    intro i hfuel h
    simp only [reserveScanAux] at h
    omega
  | succ fuel ih =>
    intro i hfuel h
    simp only [reserveScanAux] at h ⊢
    by_cases hlt : i < x.length
    · rw [dif_pos hlt] at h ⊢
      by_cases hc : (x.get ⟨i, hlt⟩).generation < 65535 ∧ (x.get ⟨i, hlt⟩).inUse = true
      · rw [if_pos hc] at h ⊢
        exact ih (i+1) (by omega) h
      · rw [if_neg hc] at h ⊢
        unfold scanContB
        rw [dif_pos hlt]
        rcases not_and_or.mp hc with hg | hu
        · rw [decide_eq_false hg, Bool.false_and]
        · rw [Bool.eq_false_iff.mpr hu, Bool.and_false]
    · rw [dif_neg hlt] at h
      omega

theorem nuf_ge (x : List xrefEntry) (i : Nat) : i ≤ nextUnusedFrom x i :=
  scan_ge x _ i

theorem nuf_le (x : List xrefEntry) (i : Nat) (hi : i ≤ x.length) :
    nextUnusedFrom x i ≤ x.length :=
  scan_le x _ i hi

theorem nuf_pass (x : List xrefEntry) (i j : Nat) (hij : i ≤ j)
    (hj : j < nextUnusedFrom x i) : scanContB x j = true :=
  scan_pass x _ i j hij hj

theorem nuf_stop (x : List xrefEntry) (i : Nat) (h : nextUnusedFrom x i < x.length) :
    scanContB x (nextUnusedFrom x i) = false :=
  scan_stop x _ i (by omega) h

theorem nuf_gt (x : List xrefEntry) (i m : Nat) (hm : m < x.length)
    (hall : ∀ j, i ≤ j → j ≤ m → scanContB x j = true) : m < nextUnusedFrom x i := by
  by_contra hle
  push_neg at hle
  have h1 : nextUnusedFrom x i < x.length := Nat.lt_of_le_of_lt hle hm
  have h2 := nuf_stop x i h1
  have h3 := hall _ (nuf_ge x i) hle
  rw [h2] at h3
  exact Bool.noConfusion h3

theorem nuf_eq (x : List xrefEntry) (i m : Nat) (hm : m < x.length) (him : i ≤ m)
    (hall : ∀ j, i ≤ j → j < m → scanContB x j = true)
    (hstop : scanContB x m = false) : nextUnusedFrom x i = m := by
  rcases Nat.lt_trichotomy (nextUnusedFrom x i) m with h | h | h
  · have h1 : nextUnusedFrom x i < x.length := Nat.lt_trans h hm
    have h2 := nuf_stop x i h1
    have h3 := hall _ (nuf_ge x i) h
    rw [h2] at h3
    exact Bool.noConfusion h3
  · exact h
  · have h4 := nuf_pass x i m him h
    rw [hstop] at h4
    exact Bool.noConfusion h4

theorem scanContB_true_iff (x : List xrefEntry) (i : Nat) :
    scanContB x i = true ↔
      ∃ h : i < x.length,
        (x.get ⟨i, h⟩).generation < 65535 ∧ (x.get ⟨i, h⟩).inUse = true := by
  unfold scanContB
  by_cases h : i < x.length
  · rw [dif_pos h]
    simp [h]
  · rw [dif_neg h]
    simp [h]

theorem dirtyAtB_true_iff (x : List xrefEntry) (i : Nat) :
    dirtyAtB x i = true ↔ ∃ h : i < x.length, (x.get ⟨i, h⟩).dirty = true := by
  unfold dirtyAtB
  by_cases h : i < x.length
  · rw [dif_pos h]
    simp [h]
  · rw [dif_neg h]
    simp [h]

/-- Every slot of the table is dirty. -/
def allDirty (x : List xrefEntry) : Prop := ∀ e ∈ x, e.dirty = true

/-- The structural invariant the store maintains: slot 0 exists, is free,
carries the sentinel generation, and every slot is dirty. -/
def StoreInv (s : file) : Prop :=
  (∃ e, s.xref.get? 0 = some e ∧ e.inUse = false ∧ e.generation = 65535) ∧
    allDirty s.xref

theorem allDirty_updSlot (x : List xrefEntry) (i : Nat) (f : xrefEntry → xrefEntry)
    (hd : allDirty x) (hf : ∀ e, e.dirty = true → (f e).dirty = true) :
    allDirty (updSlot x i f) := by
  unfold updSlot
  cases hg : x.get? i with
  | none => exact hd
  | some e =>
    intro a ha
    rcases List.mem_or_eq_of_mem_set ha with h | h
    · exact hd a h
    · subst h
      exact hf e (hd e (List.get?_mem hg))

theorem storeInv_reserve (s : file) (h : StoreInv s) :
    StoreInv s.ReserveObjectNumber.2 := by
  obtain ⟨⟨e0, hg0, hu0, hgen0⟩, hdirty⟩ := h
  unfold file.ReserveObjectNumber
  by_cases hcase : nextUnusedFrom s.xref 1 < s.xref.length
  · rw [dif_pos hcase]
    have hne : nextUnusedFrom s.xref 1 ≠ 0 := by
      have := nuf_ge s.xref 1
      omega
    constructor
    · refine ⟨{ e0 with byteOffset := (s.xref.get ⟨_, hcase⟩).byteOffset }, ?_, hu0, hgen0⟩
      rw [get?_updSlot_ne _ _ _ 0 (fun hh => hne hh.symm)]
      rw [get?_updSlot_self]
      rw [hg0]
      rfl
    · refine allDirty_updSlot _ _ _ ?_ (fun e he => he)
      exact allDirty_updSlot _ _ _ hdirty (fun e he => he)
  · rw [dif_neg hcase]
    constructor
    · refine ⟨e0, ?_, hu0, hgen0⟩
      rw [List.get?_append]
      · exact hg0
      · have : 0 < s.xref.length := by
          by_contra hz
          have hlen : s.xref.length = 0 := by omega
          rw [List.get?_eq_none.mpr (by omega)] at hg0
          exact Option.noConfusion hg0
        exact this
    · intro a ha
      rcases List.mem_append.mp ha with h | h
      · exact hdirty a h
      · rcases List.mem_singleton.mp h with rfl
        rfl

theorem storeInv_writeAt (s : file) (obj : ObjectNumber) (p : String) (s1 : file)
    (h : StoreInv s) (he : s.AddObjectAt obj p = .ok s1) : StoreInv s1 := by
  obtain ⟨⟨e0, hg0, hu0, hgen0⟩, hdirty⟩ := h
  unfold file.AddObjectAt at he
  by_cases hn : obj.number < s.xref.length
  · rw [dif_pos hn] at he
    by_cases hc1 : (s.xref.get ⟨obj.number, hn⟩).byteOffset ≠ 0
    · rw [if_pos hc1] at he
      exact Except.noConfusion he
    · rw [if_neg hc1] at he
      by_cases hc2 : (s.xref.get ⟨obj.number, hn⟩).generation ≠ obj.generation
      · rw [if_pos hc2] at he
        exact Except.noConfusion he
      · rw [if_neg hc2] at he
        cases he
        constructor
        · by_cases hz : obj.number = 0
          · refine ⟨{ e0 with byteOffset := s.output.length }, ?_, hu0, hgen0⟩
            show (updSlot s.xref obj.number _).get? 0 = _
            rw [hz, get?_updSlot_self, hg0]
            rfl
          · refine ⟨e0, ?_, hu0, hgen0⟩
            show (updSlot s.xref obj.number _).get? 0 = _
            rw [get?_updSlot_ne _ _ _ 0 (fun hh => hz hh.symm), hg0]
        · exact allDirty_updSlot _ _ _ hdirty (fun e hd => hd)
  · rw [dif_neg hn] at he
    exact Except.noConfusion he

theorem storeInv_delete (s : file) (obj : ObjectNumber) (s1 : file)
    (h : StoreInv s) (he : s.DeleteObject obj = .ok s1) : StoreInv s1 := by
  obtain ⟨⟨e0, hg0, hu0, hgen0⟩, hdirty⟩ := h
  unfold file.DeleteObject at he
  by_cases hn : obj.number < s.xref.length
  · rw [dif_pos hn] at he
    by_cases hc : obj.generation ≠ (s.xref.get ⟨obj.number, hn⟩).generation
    · rw [if_pos hc] at he
      exact Except.noConfusion he
    · rw [if_neg hc] at he
      cases he
      constructor
      · by_cases hz : obj.number = 0
        · refine ⟨{ byteOffset := obj.number, generation := e0.generation,
                    inUse := false, dirty := true }, ?_, rfl, hgen0⟩
          show (updSlot (updSlot (updSlot s.xref obj.number _) 0 _) obj.number _).get? 0 = _
          rw [hz, get?_updSlot_self, get?_updSlot_self, get?_updSlot_self, hg0]
          simp [hgen0]
        · refine ⟨{ e0 with byteOffset := obj.number }, ?_, hu0, hgen0⟩
          show (updSlot (updSlot (updSlot s.xref obj.number _) 0 _) obj.number _).get? 0 = _
          rw [get?_updSlot_ne _ _ _ 0 (fun hh => hz hh.symm)]
          rw [get?_updSlot_self]
          rw [get?_updSlot_ne _ _ _ 0 (fun hh => hz hh.symm), hg0]
          rfl
      · show allDirty (updSlot (updSlot (updSlot s.xref obj.number _) 0 _) obj.number _)
        refine allDirty_updSlot _ _ _ ?_ (fun e _ => rfl)
        refine allDirty_updSlot _ _ _ ?_ (fun e hd => hd)
        exact allDirty_updSlot _ _ _ hdirty (fun e hd => hd)
  · rw [dif_neg hn] at he
    exact Except.noConfusion he

theorem storeInv_close (s : file) (h : StoreInv s) : StoreInv s.Close := h

theorem storeInv_applyOp (s : file) (op : Op) (s1 : file)
    (h : StoreInv s) (he : applyOp s op = some s1) : StoreInv s1 := by
  cases op with
  | reserve =>
    cases he
    exact storeInv_reserve s h
  | writeAt obj p =>
    simp only [applyOp] at he
    cases hx : s.AddObjectAt obj p with
    | ok s2 =>
      rw [hx] at he
      cases he
      exact storeInv_writeAt s obj p _ h hx
    | error e =>
      rw [hx] at he
      exact Option.noConfusion he
  | delete obj =>
    simp only [applyOp] at he
    cases hx : s.DeleteObject obj with
    | ok s2 =>
      rw [hx] at he
      cases he
      exact storeInv_delete s obj _ h hx
    | error e =>
      rw [hx] at he
      exact Option.noConfusion he
  | close =>
    cases he
    exact storeInv_close s h

theorem runOps_inv {P : file → Prop}
    (hstep : ∀ s op s1, P s → applyOp s op = some s1 → P s1) :
    ∀ ops : List Op, ∀ s s1 : file, P s → runOps s ops = some s1 → P s1 := by
  intro ops
  induction ops with
  | nil =>
    intro s s1 hp hr
    cases hr
    exact hp
  | cons op rest ih =>
    intro s s1 hp hr
    simp only [runOps] at hr
    cases ha : applyOp s op with
    | some s2 =>
      rw [ha] at hr
      exact ih s2 s1 (hstep s op s2 hp ha) hr
    | none =>
      rw [ha] at hr
      exact Option.noConfusion hr

theorem storeInv_NewFile : StoreInv NewFile := by
  constructor
  · exact ⟨⟨0, 65535, false, true⟩, rfl, rfl, rfl⟩
  · intro a ha
    rcases List.mem_singleton.mp ha with rfl
    rfl

theorem reachable_storeInv (s : file) (h : Reachable s) : StoreInv s := by
  obtain ⟨ops, hr⟩ := h
  exact runOps_inv storeInv_applyOp ops NewFile s storeInv_NewFile hr

theorem skc_ge (x : List xrefEntry) : ∀ fuel i, i ≤ skipCleanAux x fuel i := by
  intro fuel
  induction fuel with
  | zero => intro i; exact Nat.le_refl i
  | succ fuel ih =>
    intro i
    simp only [skipCleanAux]
    split
    · split
      · exact Nat.le_trans (Nat.le_succ i) (ih (i+1))
      · exact Nat.le_refl i
    · exact Nat.le_refl i

theorem skc_le (x : List xrefEntry) :
    ∀ fuel i, i ≤ x.length → skipCleanAux x fuel i ≤ x.length := by
  intro fuel
  induction fuel with
  | zero => intro i hi; exact hi
  | succ fuel ih =>
    intro i hi
    simp only [skipCleanAux]
    split
    · split
      · exact ih (i+1) (by omega)
      · exact hi
    · exact hi

theorem skc_clean (x : List xrefEntry) :
    ∀ fuel i j, i ≤ j → j < skipCleanAux x fuel i → dirtyAtB x j = false := by
  intro fuel
  induction fuel with
  | zero =>
    intro i j hij hj
    simp only [skipCleanAux] at hj
    omega
  | succ fuel ih =>
    intro i j hij hj
    simp only [skipCleanAux] at hj
    by_cases hlt : i < x.length
    · rw [dif_pos hlt] at hj
      by_cases hc : (x.get ⟨i, hlt⟩).dirty = false
      · rw [if_pos hc] at hj
        rcases Nat.lt_or_ge i j with hlt2 | hge2
        · exact ih (i+1) j hlt2 hj
        · have hij2 : i = j := Nat.le_antisymm hij hge2
          subst hij2
          unfold dirtyAtB
          rw [dif_pos hlt]
          exact hc
      · rw [if_neg hc] at hj; omega
    · rw [dif_neg hlt] at hj; omega

theorem skc_stop (x : List xrefEntry) :
    ∀ fuel i, x.length ≤ i + fuel →
      skipCleanAux x fuel i < x.length → dirtyAtB x (skipCleanAux x fuel i) = true := by
  intro fuel
  induction fuel with
  | zero =>
    intro i hfuel h
    simp only [skipCleanAux] at h
    omega
  | succ fuel ih =>
    intro i hfuel h
    simp only [skipCleanAux] at h ⊢
    by_cases hlt : i < x.length
    · rw [dif_pos hlt] at h ⊢
      by_cases hc : (x.get ⟨i, hlt⟩).dirty = false
      · rw [if_pos hc] at h ⊢
        exact ih (i+1) (by omega) h
      · rw [if_neg hc] at h ⊢
        unfold dirtyAtB
        rw [dif_pos hlt]
        exact Bool.not_eq_false _ |>.mp hc
    · rw [dif_neg hlt] at h
      omega

theorem dla_all (x : List xrefEntry) :
    ∀ fuel i k, k < dirtyLenAux x fuel i → dirtyAtB x (i + k) = true := by
  intro fuel
  induction fuel with
  | zero =>
    intro i k hk
    simp only [dirtyLenAux] at hk
    omega
  | succ fuel ih =>
    intro i k hk
    simp only [dirtyLenAux] at hk
    by_cases hlt : i < x.length
    · rw [dif_pos hlt] at hk
      by_cases hc : (x.get ⟨i, hlt⟩).dirty = true
      · rw [if_pos hc] at hk
        cases k with
        | zero =>
          unfold dirtyAtB
          rw [Nat.add_zero, dif_pos hlt]
          exact hc
        | succ k =>
          have hk2 : k < dirtyLenAux x fuel (i+1) := by omega
          have := ih (i+1) k hk2
          rw [show i + (k+1) = (i+1) + k by omega]
          exact this
      · rw [if_neg hc] at hk; omega
    · rw [dif_neg hlt] at hk; omega

theorem dla_bound (x : List xrefEntry) :
    ∀ fuel i, i ≤ x.length → i + dirtyLenAux x fuel i ≤ x.length := by
  intro fuel
  induction fuel with
  | zero =>
    intro i hi
    simp only [dirtyLenAux]
    omega
  | succ fuel ih =>
    intro i hi
    simp only [dirtyLenAux]
    by_cases hlt : i < x.length
    · rw [dif_pos hlt]
      by_cases hc : (x.get ⟨i, hlt⟩).dirty = true
      · rw [if_pos hc]
        have := ih (i+1) (by omega)
        omega
      · rw [if_neg hc]; omega
    · rw [dif_neg hlt]; omega

theorem dla_stop (x : List xrefEntry) :
    ∀ fuel i, x.length ≤ i + fuel →
      i + dirtyLenAux x fuel i < x.length →
      dirtyAtB x (i + dirtyLenAux x fuel i) = false := by
  intro fuel
  induction fuel with
  | zero =>
    intro i hfuel h
    simp only [dirtyLenAux] at h
    omega
  | succ fuel ih =>
    intro i hfuel h
    simp only [dirtyLenAux] at h ⊢
    by_cases hlt : i < x.length
    · rw [dif_pos hlt] at h ⊢
      by_cases hc : (x.get ⟨i, hlt⟩).dirty = true
      · rw [if_pos hc] at h ⊢
        have := ih (i+1) (by omega) (by omega)
        rw [show i + (dirtyLenAux x fuel (i+1) + 1) = (i+1) + dirtyLenAux x fuel (i+1) by omega]
        exact this
      · rw [if_neg hc] at h ⊢
        unfold dirtyAtB
        rw [Nat.add_zero, dif_pos hlt]
        exact Bool.not_eq_true _ |>.mp hc
    · rw [dif_neg hlt] at h
      omega

theorem dla_pos (x : List xrefEntry) :
    ∀ fuel i, 0 < fuel → dirtyAtB x i = true → 0 < dirtyLenAux x fuel i := by
  intro fuel i hfuel hd
  cases fuel with
  | zero => omega
  | succ fuel =>
    simp only [dirtyLenAux]
    unfold dirtyAtB at hd
    by_cases hlt : i < x.length
    · rw [dif_pos hlt] at hd ⊢
      rw [if_pos hd]
      omega
    · rw [dif_neg hlt] at hd
      exact Bool.noConfusion hd

theorem skipClean_ge (x : List xrefEntry) (start : Nat) : start ≤ skipClean x start :=
  skc_ge x _ start

theorem skipClean_le (x : List xrefEntry) (start : Nat) (h : start ≤ x.length) :
    skipClean x start ≤ x.length :=
  skc_le x _ start h

theorem skipClean_clean (x : List xrefEntry) (start j : Nat) (hij : start ≤ j)
    (hj : j < skipClean x start) : dirtyAtB x j = false :=
  skc_clean x _ start j hij hj

theorem skipClean_stop (x : List xrefEntry) (start : Nat)
    (h : skipClean x start < x.length) : dirtyAtB x (skipClean x start) = true :=
  skc_stop x _ start (by omega) h

theorem dirtyRunLen_all (x : List xrefEntry) (i k : Nat) (hk : k < dirtyRunLen x i) :
    dirtyAtB x (i + k) = true :=
  dla_all x _ i k hk

theorem dirtyRunLen_bound (x : List xrefEntry) (i : Nat) (hi : i ≤ x.length) :
    i + dirtyRunLen x i ≤ x.length :=
  dla_bound x _ i hi

theorem dirtyRunLen_stop (x : List xrefEntry) (i : Nat)
    (h : i + dirtyRunLen x i < x.length) : dirtyAtB x (i + dirtyRunLen x i) = false :=
  dla_stop x _ i (by omega) h

theorem dirtyRunLen_pos (x : List xrefEntry) (i : Nat) (hlt : i < x.length)
    (hd : dirtyAtB x i = true) : 0 < dirtyRunLen x i :=
  dla_pos x _ i (by omega) hd

theorem coveredB_false_of_lt (rs : List (Nat × Nat)) (i : Nat)
    (h : ∀ p ∈ rs, i < p.1) : coveredB rs i = false := by
  unfold coveredB
  rw [List.any_eq_false]
  intro p hp
  have := h p hp
  simp only [Bool.and_eq_true, decide_eq_true_eq, not_and]
  intro hle
  omega

theorem coveredB_self (rs : List (Nat × Nat)) (p : Nat × Nat) (hp : p ∈ rs)
    (h2 : 1 ≤ p.2) : coveredB rs p.1 = true := by
  unfold coveredB
  rw [List.any_eq_true]
  refine ⟨p, hp, ?_⟩
  simp only [Bool.and_eq_true, decide_eq_true_eq]
  omega

theorem runsAux_spec (x : List xrefEntry) :
    ∀ fuel start, x.length ≤ start + fuel →
      (∀ p ∈ xrefRunsAux x fuel start, start ≤ p.1 ∧ 1 ≤ p.2 ∧ p.1 + p.2 ≤ x.length) ∧
      (∀ i, start ≤ i → dirtyAtB x i = coveredB (xrefRunsAux x fuel start) i) ∧
      List.Chain' (fun a b => a.1 + a.2 < b.1) (xrefRunsAux x fuel start) := by
  intro fuel
  induction fuel with
  | zero =>
    intro start hf
    simp only [xrefRunsAux]
    refine ⟨fun p hp => absurd hp (List.not_mem_nil p), ?_, List.chain'_nil⟩
    intro i hi
    unfold dirtyAtB
    rw [dif_neg (by omega)]
    rfl
  | succ fuel ih =>
    intro start hf
    simp only [xrefRunsAux, nextSegment]
    by_cases hs : skipClean x start < x.length
    · rw [if_pos hs]
      have hs_ge : start ≤ skipClean x start := skipClean_ge x start
      have hd0 : dirtyAtB x (skipClean x start) = true := skipClean_stop x start hs
      have hl_pos : 0 < dirtyRunLen x (skipClean x start) :=
        dirtyRunLen_pos x _ hs hd0
      have hbound : skipClean x start + dirtyRunLen x (skipClean x start) ≤ x.length :=
        dirtyRunLen_bound x _ (Nat.le_of_lt hs)
      obtain ⟨ihb, ihc, ihchain⟩ :=
        ih (skipClean x start + dirtyRunLen x (skipClean x start)) (by omega)
      refine ⟨?_, ?_, ?_⟩
      · intro p hp
        rcases List.mem_cons.mp hp with rfl | hp2
        · exact ⟨hs_ge, hl_pos, hbound⟩
        · have := ihb p hp2
          exact ⟨by omega, this.2.1, this.2.2⟩
      · intro i hi
        have hcons : coveredB ((skipClean x start, dirtyRunLen x (skipClean x start)) ::
            xrefRunsAux x fuel (skipClean x start + dirtyRunLen x (skipClean x start))) i =
            ((decide (skipClean x start ≤ i) &&
              decide (i < skipClean x start + dirtyRunLen x (skipClean x start))) ||
             coveredB (xrefRunsAux x fuel
               (skipClean x start + dirtyRunLen x (skipClean x start))) i) := by
          unfold coveredB
          rw [List.any_cons]
        rw [hcons]
        rcases Nat.lt_or_ge i (skipClean x start) with hcase | hcase
        · rw [skipClean_clean x start i hi hcase]
          have hhead : decide (skipClean x start ≤ i) = false := by
            simp only [decide_eq_false_iff_not]
            omega
          rw [hhead, Bool.false_and, Bool.false_or]
          symm
          refine coveredB_false_of_lt _ _ ?_
          intro p hp
          have := ihb p hp
          omega
        · rcases Nat.lt_or_ge i (skipClean x start + dirtyRunLen x (skipClean x start))
            with hcase2 | hcase2
          · have hdi : dirtyAtB x i = true := by
              have := dirtyRunLen_all x (skipClean x start) (i - skipClean x start) (by omega)
              rw [show skipClean x start + (i - skipClean x start) = i by omega] at this
              exact this
            rw [hdi]
            have h1 : decide (skipClean x start ≤ i) = true := by
              simp only [decide_eq_true_eq]; omega
            have h2 : decide (i < skipClean x start + dirtyRunLen x (skipClean x start)) = true := by
              simp only [decide_eq_true_eq]; omega
            rw [h1, h2]
            rfl
          · have hhead : decide (i < skipClean x start + dirtyRunLen x (skipClean x start)) = false := by
              simp only [decide_eq_false_iff_not]; omega
            rw [hhead, Bool.and_false, Bool.false_or]
            exact ihc i hcase2
      · rw [List.chain'_cons']
        refine ⟨?_, ihchain⟩
        intro q hq
        cases hrest : xrefRunsAux x fuel
            (skipClean x start + dirtyRunLen x (skipClean x start)) with
        | nil => rw [hrest] at hq; exact Option.noConfusion hq
        | cons q0 rest0 =>
          rw [hrest] at hq
          have hq0 : q = q0 := by
            have h5 := Option.mem_def.mp hq
            simp only [List.head?] at h5
            exact (Option.some.inj h5).symm
          subst hq0
          have hmem : q ∈ xrefRunsAux x fuel
              (skipClean x start + dirtyRunLen x (skipClean x start)) := by
            rw [hrest]; exact List.mem_cons_self _ _
          have hb := ihb q hmem
          rcases Nat.lt_or_ge (skipClean x start + dirtyRunLen x (skipClean x start)) q.1
            with hgt | hle2
          · exact hgt
          · have heq : q.1 = skipClean x start + dirtyRunLen x (skipClean x start) := by
              omega
            have hcov : coveredB (xrefRunsAux x fuel
                (skipClean x start + dirtyRunLen x (skipClean x start))) q.1 = true :=
              coveredB_self _ q hmem hb.2.1
            have hdq : dirtyAtB x q.1 = true := by
              rw [ihc q.1 hb.1]
              exact hcov
            have hstop : dirtyAtB x (skipClean x start + dirtyRunLen x (skipClean x start)) = false := by
              refine dirtyRunLen_stop x _ ?_
              have : q.1 < x.length := by
                have := hb.2.1
                have := hb.2.2
                omega
              omega
            rw [heq] at hdq
            rw [hstop] at hdq
            exact Bool.noConfusion hdq
    · rw [if_neg hs]
      refine ⟨fun p hp => absurd hp (List.not_mem_nil p), ?_, List.chain'_nil⟩
      intro i hi
      by_cases hil : i < x.length
      · have : i < skipClean x start := by omega
        rw [skipClean_clean x start i hi this]
        rfl
      · unfold dirtyAtB
        rw [dif_neg hil]
        rfl

theorem writeXrefAux_eq_emitRuns (x : List xrefEntry) :
    ∀ fuel start, writeXrefAux x fuel start = emitRuns x (xrefRunsAux x fuel start) := by
  intro fuel
  induction fuel with
  | zero => intro start; rfl
  | succ fuel ih =>
    intro start
    simp only [writeXrefAux, xrefRunsAux, nextSegment]
    by_cases hs : skipClean x start < x.length
    · rw [if_pos hs, if_pos hs]
      simp only [emitRuns]
      rw [ih]
    · rw [if_neg hs, if_neg hs]
      rfl

theorem skipClean_at_dirty (x : List xrefEntry) (start : Nat)
    (h : dirtyAtB x start = true) : skipClean x start = start := by
  rcases Nat.lt_or_ge start (skipClean x start) with hlt | hge
  · have := skipClean_clean x start start (Nat.le_refl start) hlt
    rw [h] at this
    exact Bool.noConfusion this
  · exact Nat.le_antisymm hge (skipClean_ge x start)

theorem dirtyRunLen_all_dirty (x : List xrefEntry) (i : Nat)
    (h : ∀ j, i ≤ j → j < x.length → dirtyAtB x j = true) (hi : i ≤ x.length) :
    i + dirtyRunLen x i = x.length := by
  have hb := dirtyRunLen_bound x i hi
  rcases Nat.lt_or_ge (i + dirtyRunLen x i) x.length with hlt | hge
  · have hstop := dirtyRunLen_stop x i hlt
    have := h (i + dirtyRunLen x i) (by omega) hlt
    rw [hstop] at this
    exact Bool.noConfusion this
  · omega

theorem writeXrefAux_nil (x : List xrefEntry) (fuel start : Nat)
    (h : x.length ≤ start) : writeXrefAux x fuel start = "" := by
  cases fuel with
  | zero => rfl
  | succ fuel =>
    simp only [writeXrefAux, nextSegment]
    have hsub : x.length - start = 0 := by omega
    have hsc : skipClean x start = start := by
      unfold skipClean
      rw [hsub]
      rfl
    rw [hsc, if_neg (by omega)]

theorem xrefRunsAux_nil (x : List xrefEntry) (fuel start : Nat)
    (h : x.length ≤ start) : xrefRunsAux x fuel start = [] := by
  cases fuel with
  | zero => rfl
  | succ fuel =>
    simp only [xrefRunsAux, nextSegment]
    have hsub : x.length - start = 0 := by omega
    have hsc : skipClean x start = start := by
      unfold skipClean
      rw [hsub]
      rfl
    rw [hsc, if_neg (by omega)]

/-- C9: for every slot-table contents, the index written on close is the
`xref` keyword line followed by exactly the maximal contiguous runs of
dirty slots in ascending order — a slot index is dirty precisely when one
of the emitted segments covers it, consecutive segments are separated by a
clean slot, and every segment is nonempty and in bounds — where each
segment is a header line `"<start> <count>\n"` followed by one fixed-width
`xrefEntry.serialize` record (10-digit `byteOffset`, 5-digit `generation`,
then `n`/`f`) per slot in ascending index order; a table with zero dirty
slots still produces the `xref` keyword with zero segments. -/
theorem claim_C9 (x : List xrefEntry) :
    ∃ rs : List (Nat × Nat),
      isMaximalRuns x rs ∧
      writeXrefString x = "xref\n" ++ emitRuns x rs ∧
      ((∀ e ∈ x, e.dirty = false) → writeXrefString x = "xref\n") := by
  refine ⟨xrefRuns x, ?_, ?_, ?_⟩
  · obtain ⟨hb, hc, hchain⟩ := runsAux_spec x (x.length + 1) 0 (by omega)
    exact ⟨fun i => hc i (Nat.zero_le i), hchain, fun p hp => (hb p hp).2⟩
  · unfold writeXrefString xrefRuns
    rw [writeXrefAux_eq_emitRuns]
  · intro hclean
    unfold writeXrefString
    rw [writeXrefAux_eq_emitRuns]
    have hnil : xrefRunsAux x (x.length + 1) 0 = [] := by
      cases hr : xrefRunsAux x (x.length + 1) 0 with
      | nil => rfl
      | cons p rest =>
        obtain ⟨hb, hc, _⟩ := runsAux_spec x (x.length + 1) 0 (by omega)
        have hp : p ∈ xrefRunsAux x (x.length + 1) 0 := by
          rw [hr]
          exact List.mem_cons_self _ _
        have hcov : coveredB (xrefRunsAux x (x.length + 1) 0) p.1 = true :=
          coveredB_self _ p hp (hb p hp).2.1
        have hd : dirtyAtB x p.1 = true := by
          rw [hc p.1 (Nat.zero_le _)]
          exact hcov
        rcases (dirtyAtB_true_iff x p.1).mp hd with ⟨hlt, hdd⟩
        rw [hclean _ (List.get_mem x p.1 hlt)] at hdd
        exact Bool.noConfusion hdd
    rw [hnil]
    rfl

/-- C10 (implicit): slot 0 and every appended slot are created with
`dirty = true` and no store operation ever clears the flag, so in every
reachable state the whole table is dirty and the index written on close
consists of the single segment starting at index 0 and covering the whole
table. -/
theorem claim_C10 (s : file) (h : Reachable s) :
    allDirty s.xref ∧
    xrefRuns s.xref = [(0, s.xref.length)] ∧
    writeXrefString s.xref = "xref\n" ++ segString s.xref 0 s.xref.length := by
  obtain ⟨⟨e0, hg0, hu0, hgen0⟩, hdirty⟩ := reachable_storeInv s h
  have hlen : 0 < s.xref.length := by
    by_contra hz
    rw [List.get?_eq_none.mpr (by omega)] at hg0
    exact Option.noConfusion hg0
  have hall : ∀ j, j < s.xref.length → dirtyAtB s.xref j = true := by
    intro j hj
    unfold dirtyAtB
    rw [dif_pos hj]
    exact hdirty _ (List.get_mem _ _ _)
  have hsc : skipClean s.xref 0 = 0 := skipClean_at_dirty _ _ (hall 0 hlen)
  have hdl : dirtyRunLen s.xref 0 = s.xref.length := by
    have := dirtyRunLen_all_dirty s.xref 0 (fun j _ h2 => hall j h2) (Nat.zero_le _)
    omega
  refine ⟨hdirty, ?_, ?_⟩
  · unfold xrefRuns
    simp only [xrefRunsAux, nextSegment]
    rw [hsc, hdl, if_pos hlen, xrefRunsAux_nil _ _ _ (by omega)]
  · unfold writeXrefString
    simp only [writeXrefAux, nextSegment]
    rw [hsc, hdl, if_pos hlen, writeXrefAux_nil _ _ _ (by omega)]
    rw [String.append_empty]

/-- Witness for C10 at the freshly constructed store. -/
theorem claim_C10_witness :
    allDirty NewFile.xref ∧
    xrefRuns NewFile.xref = [(0, NewFile.xref.length)] ∧
    writeXrefString NewFile.xref = "xref\n" ++ segString NewFile.xref 0 NewFile.xref.length :=
  claim_C10 NewFile ⟨[], rfl⟩

theorem runOps_append (s : file) (a b : List Op) :
    runOps s (a ++ b) = (runOps s a).bind (fun s1 => runOps s1 b) := by
  induction a generalizing s with
  | nil => rfl
  | cons op rest ih =>
    simp only [List.cons_append, runOps]
    cases applyOp s op with
    | some s1 => exact ih s1
    | none => rfl

theorem cycle_reserve (k : Nat) :
    (cycleState k).ReserveObjectNumber =
      (⟨1, k⟩, { xref := [⟨0, 65535, false, true⟩, ⟨0, k, true, true⟩],
                 output := "%PDF-1.4\n" }) := by
  unfold file.ReserveObjectNumber cycleState nextUnusedFrom
  simp [reserveScanAux, updSlot, List.set]

theorem cycle_delete (k : Nat) (hk : k < 65535) :
    file.DeleteObject
      { xref := [⟨0, 65535, false, true⟩, ⟨0, k, true, true⟩], output := "%PDF-1.4\n" }
      ⟨1, k⟩ = .ok (cycleState (k+1)) := by
  unfold file.DeleteObject cycleState
  simp [updSlot, List.set, hk]

theorem cycle_state_reachable (k : Nat) (h1 : 1 ≤ k) (hk : k ≤ 65535) :
    runOps NewFile (cycleOps k) = some (cycleState k) := by
  induction k with
  | zero => omega
  | succ k ih =>
    simp only [cycleOps]
    rw [runOps_append]
    cases Nat.eq_zero_or_pos k with
    | inl hz =>
      subst hz
      simp only [cycleOps, runOps, Option.bind]
      decide
    | inr hpos =>
      rw [ih hpos (by omega)]
      simp only [Option.bind]
      show runOps (cycleState k) [.reserve, .delete ⟨1, k⟩] = some (cycleState (k+1))
      simp only [runOps, applyOp]
      rw [cycle_reserve k]
      simp only
      rw [cycle_delete k (by omega)]
      rfl

/-- C1: the retirement property fails in the code.  After 65535
reserve/delete cycles the store reaches a state in which slot 1 carries the
sentinel generation 65535 and is free, yet the next `ReserveObjectNumber`
returns object number 1 again (with the sentinel generation): the scan
stops at a sentinel slot whether or not it may be reused, and the reuse
branch hands it out. -/
theorem claim_C1 :
    Reachable (cycleState 65535) ∧
    (cycleState 65535).xref.get? 1 = some ⟨0, 65535, false, true⟩ ∧
    (cycleState 65535).ReserveObjectNumber.1 = ⟨1, 65535⟩ := by
  refine ⟨⟨cycleOps 65535, cycle_state_reachable 65535 (by omega) (by omega)⟩, rfl, ?_⟩
  decide

/-- C2 counterexample: in the reachable state after 65535 reserve/delete
cycles on object number 1, two consecutive `ReserveObjectNumber` calls with
no intervening operation both return the ObjectNumber (1, 65535), so the
returned ObjectNumbers are not pairwise distinct. -/
theorem claim_C2_cex :
    Reachable (cycleState 65535) ∧
    reserveSeq (cycleState 65535) 2 = [⟨1, 65535⟩, ⟨1, 65535⟩] := by
  refine ⟨⟨cycleOps 65535, cycle_state_reachable 65535 (by omega) (by omega)⟩, ?_⟩
  decide

/-- C3 counterexample: in the reachable state after 65535 reserve/delete
cycles, `DeleteObject (1, 65535)` succeeds, and an immediately repeated
`DeleteObject` with the same ObjectNumber succeeds again instead of
failing: the sentinel generation is not bumped, so the double delete is
silently accepted. -/
theorem claim_C3_cex :
    Reachable (cycleState 65535) ∧
    (((cycleState 65535).DeleteObject ⟨1, 65535⟩).toOption.bind
      (fun s1 => (s1.DeleteObject ⟨1, 65535⟩).toOption)).isSome = true := by
  refine ⟨⟨cycleOps 65535, cycle_state_reachable 65535 (by omega) (by omega)⟩, ?_⟩
  decide

theorem get?_some (x : List xrefEntry) (j : Nat) (e : xrefEntry)
    (hg : x.get? j = some e) : ∃ h : j < x.length, x.get ⟨j, h⟩ = e :=
  List.get?_eq_some.mp hg

theorem scanContB_intro (x : List xrefEntry) (j : Nat) (e : xrefEntry)
    (hg : x.get? j = some e) (h1 : e.generation < 65535) (h2 : e.inUse = true) :
    scanContB x j = true := by
  obtain ⟨hlt, he⟩ := get?_some x j e hg
  rw [scanContB_true_iff]
  exact ⟨hlt, by rw [he]; exact h1, by rw [he]; exact h2⟩

theorem scanContB_ext (x y : List xrefEntry) (j : Nat)
    (hl : j < y.length ↔ j < x.length)
    (hj : y.get? j = x.get? j) : scanContB y j = scanContB x j := by
  unfold scanContB
  by_cases h : j < x.length
  · rw [dif_pos h, dif_pos (hl.mpr h)]
    have h1 := List.get?_eq_get (l := y) (hl.mpr h)
    have h2 := List.get?_eq_get (l := x) h
    rw [h1, h2] at hj
    rw [Option.some.inj hj]
  · rw [dif_neg h, dif_neg (fun hy => h (hl.mp hy))]

theorem noRetired_elim (x : List xrefEntry) (hnr : noRetired x) (i : Nat) (e : xrefEntry)
    (h1 : 1 ≤ i) (hg : x.get? i = some e) : e.generation < 65535 := by
  obtain ⟨hlt, he⟩ := get?_some x i e hg
  have := hnr i hlt h1
  rw [he] at this
  exact this

theorem noRetired_of_get? (x : List xrefEntry)
    (h : ∀ i e, 1 ≤ i → x.get? i = some e → e.generation < 65535) : noRetired x := by
  intro i hi h1
  exact h i _ h1 (List.get?_eq_get hi)

theorem reserve_number (s : file) :
    s.ReserveObjectNumber.1.number = nextUnusedFrom s.xref 1 % 4294967296 := by
  unfold file.ReserveObjectNumber
  by_cases hc : nextUnusedFrom s.xref 1 < s.xref.length
  · rw [dif_pos hc]
  · rw [dif_neg hc]

theorem reserve_xref_reuse (s : file) (hc : nextUnusedFrom s.xref 1 < s.xref.length) :
    s.ReserveObjectNumber.2.xref =
      updSlot (updSlot s.xref 0 (fun e0 =>
          { e0 with byteOffset := (s.xref.get ⟨nextUnusedFrom s.xref 1, hc⟩).byteOffset }))
        (nextUnusedFrom s.xref 1) (fun e => { e with inUse := true }) := by
  unfold file.ReserveObjectNumber
  rw [dif_pos hc]

theorem reserve_xref_append (s : file) (hc : ¬ nextUnusedFrom s.xref 1 < s.xref.length) :
    s.ReserveObjectNumber.2.xref = s.xref ++ [⟨0, 0, true, true⟩] := by
  unfold file.ReserveObjectNumber
  rw [dif_neg hc]

theorem reserve_len_ge (s : file) :
    s.xref.length ≤ s.ReserveObjectNumber.2.xref.length ∧
      s.ReserveObjectNumber.2.xref.length ≤ s.xref.length + 1 := by
  by_cases hc : nextUnusedFrom s.xref 1 < s.xref.length
  · rw [reserve_xref_reuse s hc, length_updSlot, length_updSlot]
    omega
  · rw [reserve_xref_append s hc]
    simp

theorem reserve_noRetired (s : file) (hnr : noRetired s.xref) :
    noRetired s.ReserveObjectNumber.2.xref := by
  have hge1 : 1 ≤ nextUnusedFrom s.xref 1 := nuf_ge s.xref 1
  by_cases hc : nextUnusedFrom s.xref 1 < s.xref.length
  · rw [reserve_xref_reuse s hc]
    refine noRetired_of_get? _ ?_
    intro i e h1 hg
    by_cases him : i = nextUnusedFrom s.xref 1
    · rw [him, get?_updSlot_self, get?_updSlot_ne _ _ _ _ (by omega)] at hg
      cases hg2 : s.xref.get? (nextUnusedFrom s.xref 1) with
      | none => rw [hg2] at hg; exact Option.noConfusion hg
      | some e2 =>
        rw [hg2] at hg
        have he : e = { e2 with inUse := true } := (Option.some.inj hg).symm
        have hgen := noRetired_elim s.xref hnr _ e2 (by omega) hg2
        rw [he]
        exact hgen
    · rw [get?_updSlot_ne _ _ _ _ him] at hg
      rw [get?_updSlot_ne _ _ _ _ (by omega)] at hg
      exact noRetired_elim s.xref hnr i e h1 hg
  · rw [reserve_xref_append s hc]
    refine noRetired_of_get? _ ?_
    intro i e h1 hg
    rcases Nat.lt_trichotomy i s.xref.length with hi | hi | hi
    · rw [List.get?_append hi] at hg
      exact noRetired_elim s.xref hnr i e h1 hg
    · subst hi
      rw [List.get?_concat_length] at hg
      have he : e = ⟨0, 0, true, true⟩ := (Option.some.inj hg).symm
      rw [he]
      decide
    · rw [List.get?_eq_none.mpr (by simp; omega)] at hg
      exact Option.noConfusion hg

theorem reserve_ff_lt (s : file) (hlen : 1 ≤ s.xref.length) (hnr : noRetired s.xref) :
    nextUnusedFrom s.xref 1 < nextUnusedFrom s.ReserveObjectNumber.2.xref 1 := by
  have hge1 : 1 ≤ nextUnusedFrom s.xref 1 := nuf_ge s.xref 1
  have hle : nextUnusedFrom s.xref 1 ≤ s.xref.length := nuf_le s.xref 1 hlen
  by_cases hc : nextUnusedFrom s.xref 1 < s.xref.length
  · rw [reserve_xref_reuse s hc]
    have hlen2 : (updSlot (updSlot s.xref 0 (fun e0 =>
        { e0 with byteOffset := (s.xref.get ⟨nextUnusedFrom s.xref 1, hc⟩).byteOffset }))
        (nextUnusedFrom s.xref 1) (fun e => { e with inUse := true })).length =
        s.xref.length := by
      rw [length_updSlot, length_updSlot]
    refine nuf_gt _ 1 (nextUnusedFrom s.xref 1) (by omega) ?_
    intro j h1j hjm
    rcases Nat.lt_or_ge j (nextUnusedFrom s.xref 1) with hjlt | hjge
    · have hpass : scanContB s.xref j = true := nuf_pass s.xref 1 j h1j hjlt
      have hext : (updSlot (updSlot s.xref 0 (fun e0 =>
          { e0 with byteOffset := (s.xref.get ⟨nextUnusedFrom s.xref 1, hc⟩).byteOffset }))
          (nextUnusedFrom s.xref 1) (fun e => { e with inUse := true })).get? j =
          s.xref.get? j := by
        rw [get?_updSlot_ne _ _ _ _ (by omega), get?_updSlot_ne _ _ _ _ (by omega)]
      rw [scanContB_ext s.xref _ j (by rw [hlen2]) hext]
      exact hpass
    · have hjm2 : j = nextUnusedFrom s.xref 1 := by omega
      have hg : s.xref.get? (nextUnusedFrom s.xref 1) =
          some (s.xref.get ⟨nextUnusedFrom s.xref 1, hc⟩) := List.get?_eq_get hc
      have hg2 : (updSlot (updSlot s.xref 0 (fun e0 =>
          { e0 with byteOffset := (s.xref.get ⟨nextUnusedFrom s.xref 1, hc⟩).byteOffset }))
          (nextUnusedFrom s.xref 1) (fun e => { e with inUse := true })).get?
          (nextUnusedFrom s.xref 1) =
          some { s.xref.get ⟨nextUnusedFrom s.xref 1, hc⟩ with inUse := true } := by
        rw [get?_updSlot_self, get?_updSlot_ne _ _ _ _ (by omega), hg]
        rfl
      rw [hjm2]
      refine scanContB_intro _ _ _ hg2 ?_ rfl
      have hgen : (s.xref.get ⟨nextUnusedFrom s.xref 1, hc⟩).generation < 65535 :=
        noRetired_elim s.xref hnr _ _ (by omega) hg
      exact hgen
  · have hm : nextUnusedFrom s.xref 1 = s.xref.length := by omega
    rw [reserve_xref_append s hc]
    have hlen2 : (s.xref ++ [(⟨0, 0, true, true⟩ : xrefEntry)]).length =
        s.xref.length + 1 := by simp
    rw [hm]
    refine nuf_gt _ 1 s.xref.length (by omega) ?_
    intro j h1j hjm
    rcases Nat.lt_or_ge j s.xref.length with hjlt | hjge
    · have hpass : scanContB s.xref j = true := by
        refine nuf_pass s.xref 1 j h1j ?_
        omega
      have hext : (s.xref ++ [(⟨0, 0, true, true⟩ : xrefEntry)]).get? j = s.xref.get? j :=
        List.get?_append hjlt
      rw [scanContB_ext s.xref _ j (by rw [hlen2]; omega) hext]
      exact hpass
    · have hjm2 : j = s.xref.length := by omega
      rw [hjm2]
      refine scanContB_intro _ s.xref.length ⟨0, 0, true, true⟩ ?_ (by decide) rfl
      exact List.get?_concat_length _ _

theorem reserveSeq_mono (n : Nat) :
    ∀ s : file, 1 ≤ s.xref.length → noRetired s.xref →
      s.xref.length + n ≤ 4294967296 →
      List.Pairwise (fun a b => a.number < b.number) (reserveSeq s n) ∧
        ∀ obj ∈ reserveSeq s n, nextUnusedFrom s.xref 1 ≤ obj.number := by
  induction n with
  | zero =>
    intro s _ _ _
    exact ⟨List.Pairwise.nil, fun obj h => absurd h (List.not_mem_nil obj)⟩
  | succ n ih =>
    intro s hlen hnr hbound
    have hff_le : nextUnusedFrom s.xref 1 ≤ s.xref.length := nuf_le s.xref 1 hlen
    have hff_lt32 : nextUnusedFrom s.xref 1 < 4294967296 := by omega
    have hnum : s.ReserveObjectNumber.1.number = nextUnusedFrom s.xref 1 := by
      rw [reserve_number s]
      exact Nat.mod_eq_of_lt hff_lt32
    have hlen1 := reserve_len_ge s
    have hlen1a : 1 ≤ s.ReserveObjectNumber.2.xref.length := by omega
    have hnr1 := reserve_noRetired s hnr
    have hbound1 : s.ReserveObjectNumber.2.xref.length + n ≤ 4294967296 := by omega
    have hfflt := reserve_ff_lt s hlen hnr
    obtain ⟨ihp, ihm⟩ := ih s.ReserveObjectNumber.2 hlen1a hnr1 hbound1
    constructor
    · simp only [reserveSeq]
      rw [List.pairwise_cons]
      refine ⟨?_, ihp⟩
      intro b hb
      have := ihm b hb
      rw [hnum]
      omega
    · intro obj hobj
      simp only [reserveSeq] at hobj
      rcases List.mem_cons.mp hobj with rfl | htail
      · rw [hnum]
      · have := ihm obj htail
        omega

/-- C2 amended: for every state whose table is nonempty, in which no slot
other than slot 0 has reached the retirement sentinel, and whose table
cannot grow past the 32-bit object-number space during the calls, the
ObjectNumbers returned by consecutive `ReserveObjectNumber` calls with no
intervening operation are pairwise distinct (their numbers are in fact
strictly increasing). -/
theorem claim_C2_amended (s : file) (n : Nat) (hlen : 1 ≤ s.xref.length)
    (hnr : noRetired s.xref) (hbound : s.xref.length + n ≤ 4294967296) :
    List.Pairwise (fun a b => a ≠ b) (reserveSeq s n) := by
  have h := (reserveSeq_mono n s hlen hnr hbound).1
  refine h.imp ?_
  intro a b hab heq
  rw [heq] at hab
  omega

/-- Witness for the amended C2 at a freshly constructed store and three
consecutive reserves. -/
theorem claim_C2_amended_witness :
    List.Pairwise (fun a b => a ≠ b) (reserveSeq NewFile 3) :=
  claim_C2_amended NewFile 3 (by decide)
    (fun i h h1 => absurd h1 (by have h2 : i < 1 := h; omega))
    (by decide)

theorem scanContB_false_intro (x : List xrefEntry) (j : Nat) (e : xrefEntry)
    (hg : x.get? j = some e) (h2 : e.inUse = false) : scanContB x j = false := by
  obtain ⟨hlt, he⟩ := get?_some x j e hg
  unfold scanContB
  rw [dif_pos hlt, he, h2, Bool.and_false]

/-- What a successful `DeleteObject` does to the table: the generation
check passed, the length is unchanged, slots other than 0 and the target
are untouched, the target slot's generation is bumped under the sentinel
guard and it is no longer in use, and nothing is written to the output. -/
theorem delete_ok_spec (s : file) (obj : ObjectNumber) (e : xrefEntry) (s1 : file)
    (hg : s.xref.get? obj.number = some e)
    (he : s.DeleteObject obj = .ok s1) :
    obj.generation = e.generation ∧
    s1.xref.length = s.xref.length ∧
    (∀ j, j ≠ 0 → j ≠ obj.number → s1.xref.get? j = s.xref.get? j) ∧
    (∀ e1, s1.xref.get? obj.number = some e1 →
      e1.generation = (if e.generation < 65535 then e.generation + 1 else e.generation) ∧
      e1.inUse = false) ∧
    s1.output = s.output := by
  obtain ⟨hn, hge⟩ := get?_some _ _ _ hg
  unfold file.DeleteObject at he
  rw [dif_pos hn] at he
  by_cases hc : obj.generation ≠ (s.xref.get ⟨obj.number, hn⟩).generation
  · rw [if_pos hc] at he
    exact Except.noConfusion he
  · rw [if_neg hc] at he
    cases he
    push_neg at hc
    rw [hge] at hc
    refine ⟨hc, ?_, ?_, ?_, rfl⟩
    · show (updSlot (updSlot (updSlot s.xref obj.number _) 0 _) obj.number _).length = _
      rw [length_updSlot, length_updSlot, length_updSlot]
    · intro j hj0 hjn
      show (updSlot (updSlot (updSlot s.xref obj.number _) 0 _) obj.number _).get? j = _
      rw [get?_updSlot_ne _ _ _ _ hjn, get?_updSlot_ne _ _ _ _ hj0,
        get?_updSlot_ne _ _ _ _ hjn]
    · intro e1 h2
      have h3 : (updSlot (updSlot (updSlot s.xref obj.number _) 0 _) obj.number _).get?
          obj.number = some e1 := h2
      by_cases hz : obj.number = 0
      · have hg0 : s.xref.get? 0 = some e := by rw [← hz]; exact hg
        rw [hz, get?_updSlot_self, get?_updSlot_self, get?_updSlot_self, hg0] at h3
        simp only [Option.map_some'] at h3
        rw [← Option.some.inj h3]
        exact ⟨rfl, rfl⟩
      · rw [get?_updSlot_self, get?_updSlot_ne _ _ _ _ hz, get?_updSlot_self, hg] at h3
        simp only [Option.map_some'] at h3
        rw [← Option.some.inj h3]
        exact ⟨rfl, rfl⟩

/-- C3 amended: for every state and ObjectNumber whose number indexes an
existing slot, `DeleteObject` succeeds exactly when the argument's
generation equals the slot's stored generation and fails with
`GenerationMismatch` otherwise; and after a successful delete of a handle
whose generation is below the retirement sentinel, an immediately repeated
delete with the same ObjectNumber fails with `GenerationMismatch`.  (At the
sentinel generation the repeat is silently accepted — see the
counterexample.) -/
theorem claim_C3_amended (s : file) (obj : ObjectNumber) (e : xrefEntry)
    (hg : s.xref.get? obj.number = some e) :
    ((obj.generation = e.generation → ∃ s1, s.DeleteObject obj = .ok s1) ∧
      (obj.generation ≠ e.generation →
        s.DeleteObject obj = .error .GenerationMismatch)) ∧
    (∀ s1, obj.generation < 65535 → s.DeleteObject obj = .ok s1 →
      s1.DeleteObject obj = .error .GenerationMismatch) := by
  obtain ⟨hn, hge⟩ := get?_some _ _ _ hg
  refine ⟨⟨?_, ?_⟩, ?_⟩
  · intro heq
    unfold file.DeleteObject
    rw [dif_pos hn, if_neg (by rw [hge]; omega)]
    exact ⟨_, rfl⟩
  · intro hne
    unfold file.DeleteObject
    rw [dif_pos hn, if_pos (by rw [hge]; exact hne)]
  · intro s1 hlt he
    obtain ⟨hcgen, hlen1, _, hslot, _⟩ := delete_ok_spec s obj e s1 hg he
    have hn1 : obj.number < s1.xref.length := by omega
    have hg1 : s1.xref.get? obj.number = some (s1.xref.get ⟨obj.number, hn1⟩) :=
      List.get?_eq_get hn1
    obtain ⟨hgen1, _⟩ := hslot _ hg1
    have hne2 : obj.generation ≠ (s1.xref.get ⟨obj.number, hn1⟩).generation := by
      rw [hgen1, if_pos (by omega)]
      omega
    unfold file.DeleteObject
    rw [dif_pos hn1, if_pos hne2]

/-- Witness for the amended C3: reserve (1,0) on a fresh store, then the
three conclusions at that slot. -/
theorem claim_C3_amended_witness :
    NewFile.ReserveObjectNumber.2.xref.get? 1 = some ⟨0, 0, true, true⟩ ∧
    ((((⟨1, 0⟩ : ObjectNumber).generation = (⟨0, 0, true, true⟩ : xrefEntry).generation →
        ∃ s1, NewFile.ReserveObjectNumber.2.DeleteObject ⟨1, 0⟩ = .ok s1) ∧
      ((⟨1, 0⟩ : ObjectNumber).generation ≠ (⟨0, 0, true, true⟩ : xrefEntry).generation →
        NewFile.ReserveObjectNumber.2.DeleteObject ⟨1, 0⟩ = .error .GenerationMismatch)) ∧
    (∀ s1, (⟨1, 0⟩ : ObjectNumber).generation < 65535 →
        NewFile.ReserveObjectNumber.2.DeleteObject ⟨1, 0⟩ = .ok s1 →
        s1.DeleteObject ⟨1, 0⟩ = .error .GenerationMismatch)) :=
  ⟨rfl, claim_C3_amended NewFile.ReserveObjectNumber.2 ⟨1, 0⟩ ⟨0, 0, true, true⟩ rfl⟩

/-- C4 amended: a stale handle (generation strictly below the slot's
stored generation) always fails: `DeleteObject` always reports
`GenerationMismatch`, but `AddObjectAt` reports `AlreadyWritten` whenever
the slot's `byteOffset` is nonzero (its check comes first) and
`GenerationMismatch` only when the `byteOffset` is zero. -/
theorem claim_C4_amended (s : file) (obj : ObjectNumber) (e : xrefEntry) (p : String)
    (hg : s.xref.get? obj.number = some e)
    (hstale : obj.generation < e.generation) :
    s.DeleteObject obj = .error .GenerationMismatch ∧
    s.AddObjectAt obj p =
      .error (if e.byteOffset ≠ 0 then Err.AlreadyWritten else Err.GenerationMismatch) := by
  obtain ⟨hn, hge⟩ := get?_some _ _ _ hg
  constructor
  · unfold file.DeleteObject
    rw [dif_pos hn, if_pos (by rw [hge]; omega)]
  · unfold file.AddObjectAt
    rw [dif_pos hn]
    by_cases hb : e.byteOffset ≠ 0
    · rw [if_pos (by rw [hge]; exact hb), if_pos hb]
    · rw [if_neg (by rw [hge]; exact hb), if_neg hb,
        if_pos (by rw [hge]; omega)]

/-- Witness for the amended C4 in the reachable state after reserve,
reserve, delete (2,0), delete (1,0): the stale handle (1,0) on slot 1
(current generation 1, leftover free-list link 2 in `byteOffset`) fails
`DeleteObject` with `GenerationMismatch` but fails `AddObjectAt` with
`AlreadyWritten`. -/
theorem claim_C4_amended_witness :
    (file.mk [⟨1, 65535, false, true⟩, ⟨2, 1, false, true⟩, ⟨0, 1, false, true⟩]
        "%PDF-1.4\n").xref.get? 1 = some ⟨2, 1, false, true⟩ ∧
    (0 : Nat) < (⟨2, 1, false, true⟩ : xrefEntry).generation ∧
    ((file.mk [⟨1, 65535, false, true⟩, ⟨2, 1, false, true⟩, ⟨0, 1, false, true⟩]
        "%PDF-1.4\n").DeleteObject ⟨1, 0⟩ = .error .GenerationMismatch ∧
      (file.mk [⟨1, 65535, false, true⟩, ⟨2, 1, false, true⟩, ⟨0, 1, false, true⟩]
        "%PDF-1.4\n").AddObjectAt ⟨1, 0⟩ "x" =
        .error (if (⟨2, 1, false, true⟩ : xrefEntry).byteOffset ≠ 0 then
          Err.AlreadyWritten else Err.GenerationMismatch)) :=
  ⟨rfl, by decide,
    claim_C4_amended
      (file.mk [⟨1, 65535, false, true⟩, ⟨2, 1, false, true⟩, ⟨0, 1, false, true⟩]
        "%PDF-1.4\n") ⟨1, 0⟩ ⟨2, 1, false, true⟩ "x" rfl (by decide)⟩

/-- C4 counterexample: the state above is reachable, the handle (1,0) is
stale there (slot 1 has generation 1), and `AddObjectAt` with it fails with
`AlreadyWritten`, not `GenerationMismatch`. -/
theorem claim_C4_cex :
    runOps NewFile [.reserve, .reserve, .delete ⟨2, 0⟩, .delete ⟨1, 0⟩] =
      some (file.mk [⟨1, 65535, false, true⟩, ⟨2, 1, false, true⟩, ⟨0, 1, false, true⟩]
        "%PDF-1.4\n") ∧
    (file.mk [⟨1, 65535, false, true⟩, ⟨2, 1, false, true⟩, ⟨0, 1, false, true⟩]
        "%PDF-1.4\n").xref.get? 1 = some ⟨2, 1, false, true⟩ ∧
    (file.mk [⟨1, 65535, false, true⟩, ⟨2, 1, false, true⟩, ⟨0, 1, false, true⟩]
        "%PDF-1.4\n").AddObjectAt ⟨1, 0⟩ "x" = .error .AlreadyWritten := by
  refine ⟨by decide, rfl, rfl⟩

/-- C5: the single-assignment claim fails in the code.  Starting from a
fresh store, after reserve, reserve, delete (2,0), delete (1,0), the next
reserve hands out the freshly bumped pair (1,1); slot 1 still holds the
stale free-list link 2 in `byteOffset`, so the very first `AddObjectAt` on
this freshly reserved pair fails with `AlreadyWritten` even though nothing
was ever written (the output is still just the header). -/
theorem claim_C5 :
    runOps NewFile [.reserve, .reserve, .delete ⟨2, 0⟩, .delete ⟨1, 0⟩] =
      some (file.mk [⟨1, 65535, false, true⟩, ⟨2, 1, false, true⟩, ⟨0, 1, false, true⟩]
        "%PDF-1.4\n") ∧
    (file.mk [⟨1, 65535, false, true⟩, ⟨2, 1, false, true⟩, ⟨0, 1, false, true⟩]
        "%PDF-1.4\n").ReserveObjectNumber.1 = ⟨1, 1⟩ ∧
    (file.mk [⟨1, 65535, false, true⟩, ⟨2, 1, false, true⟩, ⟨0, 1, false, true⟩]
        "%PDF-1.4\n").ReserveObjectNumber.2.output = "%PDF-1.4\n" ∧
    (file.mk [⟨1, 65535, false, true⟩, ⟨2, 1, false, true⟩, ⟨0, 1, false, true⟩]
        "%PDF-1.4\n").ReserveObjectNumber.2.AddObjectAt ⟨1, 1⟩ "x" =
      .error .AlreadyWritten := by
  refine ⟨by decide, rfl, rfl, rfl⟩

/-- C6: the source keeps no closed flag at all.  A second `Close` runs the
index serializer again and appends a second copy of the index to the
output, and a write or delete issued after `Close` succeeds instead of
failing (there is no `AlreadyClosed` failure anywhere in the code). -/
theorem claim_C6 :
    NewFile.Close.Close.output =
      "%PDF-1.4\nxref\n0 1\n0000000000 65535 f \nxref\n0 1\n0000000000 65535 f \n" ∧
    (NewFile.ReserveObjectNumber.2.Close.AddObjectAt ⟨1, 0⟩ "true").toOption.isSome = true ∧
    (NewFile.ReserveObjectNumber.2.Close.DeleteObject ⟨1, 0⟩).toOption.isSome = true := by
  refine ⟨rfl, rfl, rfl⟩

/-- C7 amended: in every reachable state slot 0 exists, is never in use,
and carries the sentinel generation 65535.  (The claim's further clause
that slot 0's `byteOffset` is the free-list head fails — see the
counterexample: the reserve scan takes the lowest-index free slot rather
than the slot the head names, and copies that slot's stale link over the
head, so the head can read 0 while free slots remain.) -/
theorem claim_C7_amended (s : file) (h : Reachable s) :
    ∃ e, s.xref.get? 0 = some e ∧ e.inUse = false ∧ e.generation = 65535 :=
  (reachable_storeInv s h).1

/-- Witness for the amended C7 at the freshly constructed store. -/
theorem claim_C7_amended_witness :
    ∃ e, NewFile.xref.get? 0 = some e ∧ e.inUse = false ∧ e.generation = 65535 :=
  claim_C7_amended NewFile ⟨[], rfl⟩

/-- C7 counterexample: after the reachable sequence reserve, reserve,
delete (1,0), delete (2,0), reserve, slot 0's `byteOffset` is 0 — an empty
free list — while slot 2 is still free, so `byteOffset` does not hold the
free-list head. -/
theorem claim_C7_cex :
    runOps NewFile [.reserve, .reserve, .delete ⟨1, 0⟩, .delete ⟨2, 0⟩, .reserve] =
      some (file.mk [⟨0, 65535, false, true⟩, ⟨0, 1, true, true⟩, ⟨1, 1, false, true⟩]
        "%PDF-1.4\n") ∧
    (file.mk [⟨0, 65535, false, true⟩, ⟨0, 1, true, true⟩, ⟨1, 1, false, true⟩]
        "%PDF-1.4\n").xref.get? 0 = some ⟨0, 65535, false, true⟩ ∧
    (file.mk [⟨0, 65535, false, true⟩, ⟨0, 1, true, true⟩, ⟨1, 1, false, true⟩]
        "%PDF-1.4\n").xref.get? 2 = some ⟨1, 1, false, true⟩ := by
  refine ⟨by decide, rfl, rfl⟩

/-- C8 amended: releasing an ObjectNumber whose slot generation is below
the sentinel and then reserving with no operation in between returns the
same number with the generation exactly one greater, provided every slot
with a smaller index (other than slot 0) is in use with a generation below
the sentinel; without that proviso the scan stops at the smaller index
first (see the counterexample). -/
theorem claim_C8_amended (s : file) (obj : ObjectNumber) (e : xrefEntry) (s1 : file)
    (hg : s.xref.get? obj.number = some e)
    (h1 : 1 ≤ obj.number) (h32 : obj.number < 4294967296)
    (hgen : obj.generation = e.generation) (hlt : e.generation < 65535)
    (hsmall : ∀ j, 1 ≤ j → j < obj.number → scanContB s.xref j = true)
    (he : s.DeleteObject obj = .ok s1) :
    s1.ReserveObjectNumber.1 = ⟨obj.number, obj.generation + 1⟩ := by
  obtain ⟨hn, hge⟩ := get?_some _ _ _ hg
  obtain ⟨hcgen, hlen1, hother, hslot, _⟩ := delete_ok_spec s obj e s1 hg he
  have hn1 : obj.number < s1.xref.length := by omega
  have hg1 : s1.xref.get? obj.number = some (s1.xref.get ⟨obj.number, hn1⟩) :=
    List.get?_eq_get hn1
  obtain ⟨hgen1, huse1⟩ := hslot _ hg1
  have hff : nextUnusedFrom s1.xref 1 = obj.number := by
    refine nuf_eq s1.xref 1 obj.number hn1 h1 ?_ ?_
    · intro j h1j hjn
      have hj := hsmall j h1j hjn
      have hext : s1.xref.get? j = s.xref.get? j := hother j (by omega) (by omega)
      rw [scanContB_ext s.xref s1.xref j (by omega) hext]
      exact hj
    · exact scanContB_false_intro s1.xref obj.number _ hg1 huse1
  unfold file.ReserveObjectNumber
  rw [hff, dif_pos hn1]
  have hgoal : (⟨obj.number % 4294967296,
      (s1.xref.get ⟨obj.number, hn1⟩).generation⟩ : ObjectNumber) =
      ⟨obj.number, obj.generation + 1⟩ := by
    rw [Nat.mod_eq_of_lt h32, hgen1, if_pos (by omega), hgen]
  exact hgoal

/-- Witness for the amended C8: the spec's scenario.  A fresh store
reserves (1,0), writes the value "true" there, deletes it, and the next
reserve returns (1,1). -/
theorem claim_C8_amended_witness :
    NewFile.ReserveObjectNumber.1 = ⟨1, 0⟩ ∧
    NewFile.ReserveObjectNumber.2.AddObjectAt ⟨1, 0⟩ "true" =
      .ok (file.mk [⟨0, 65535, false, true⟩, ⟨9, 0, true, true⟩]
        "%PDF-1.4\n1 0 obj\ntrue\nendobj\n") ∧
    (file.mk [⟨0, 65535, false, true⟩, ⟨9, 0, true, true⟩]
        "%PDF-1.4\n1 0 obj\ntrue\nendobj\n").DeleteObject ⟨1, 0⟩ =
      .ok (file.mk [⟨1, 65535, false, true⟩, ⟨0, 1, false, true⟩]
        "%PDF-1.4\n1 0 obj\ntrue\nendobj\n") ∧
    (file.mk [⟨1, 65535, false, true⟩, ⟨0, 1, false, true⟩]
        "%PDF-1.4\n1 0 obj\ntrue\nendobj\n").ReserveObjectNumber.1 = ⟨1, 1⟩ :=
  ⟨rfl, rfl, rfl,
    claim_C8_amended
      (file.mk [⟨0, 65535, false, true⟩, ⟨9, 0, true, true⟩]
        "%PDF-1.4\n1 0 obj\ntrue\nendobj\n")
      ⟨1, 0⟩ ⟨9, 0, true, true⟩
      (file.mk [⟨1, 65535, false, true⟩, ⟨0, 1, false, true⟩]
        "%PDF-1.4\n1 0 obj\ntrue\nendobj\n")
      rfl (by decide) (by decide) rfl (by decide)
      (fun j hj1 hj2 => absurd (Nat.lt_of_le_of_lt hj1 hj2) (Nat.lt_irrefl 1))
      rfl⟩

/-- C8 counterexample: from the reachable state after reserve, reserve,
delete (1,0) — in which slot 1 is already free — releasing (2,0) and then
reserving returns (1,1), not an ObjectNumber with number 2: the scan reuses
the lowest-index free slot, not the one just released. -/
theorem claim_C8_cex :
    runOps NewFile [.reserve, .reserve, .delete ⟨1, 0⟩] =
      some (file.mk [⟨1, 65535, false, true⟩, ⟨0, 1, false, true⟩, ⟨0, 0, true, true⟩]
        "%PDF-1.4\n") ∧
    ((file.mk [⟨1, 65535, false, true⟩, ⟨0, 1, false, true⟩, ⟨0, 0, true, true⟩]
        "%PDF-1.4\n").DeleteObject ⟨2, 0⟩).toOption.map
      (fun t => t.ReserveObjectNumber.1) = some ⟨1, 1⟩ ∧
    (⟨1, 1⟩ : ObjectNumber).number ≠ (⟨2, 0⟩ : ObjectNumber).number := by
  refine ⟨by decide, rfl, by decide⟩

end PDFiG
